import Mathlib

/-!
Shallow embedding of `src/util/Fs.cpp` (stellar-core filesystem utilities)
and proofs about it.

The C++ module has two components:

* a PathNamer: pure string functions `hexStr`, `hexDir`, `baseName`,
  `remoteDir`, `remoteName` computing checkpoint file names;
* a LockRegistry: a process-wide `lockMap` from path strings to OS lock
  handles, manipulated by `lockFile` / `unlockFile`, with a POSIX branch
  (open + flock) and a Windows branch (CreateFile with
  FILE_FLAG_DELETE_ON_CLOSE);
* thin PathOps shims: `exists`, `mkdir`, `mkpath`.

Pure functions are embedded as Lean functions on `String` / `List Char`.
OS interactions (stat results, open/flock outcomes, the set of existing
files) are made explicit parameters or explicit state, so every function
here is executable and every outcome of the C++ code corresponds to a
constructor (`Except` for thrown `std::runtime_error`, `Bool` for boolean
results).
-/

namespace StellarFs

/-! ## PathNamer -/

/-- Big-endian base-16 digits of `n`, fixed width `k`: the digit list
`[n / 16^(k-1) % 16, ..., n / 16 % 16, n % 16]`. -/
def toDigits : Nat → Nat → List Nat
  | 0, _ => []
  | k + 1, n => (n / 16 ^ k % 16) :: toDigits k n

/-- Embedding of C++ `fs::hexStr` (Fs.cpp:282-286):
`fmt::format("{:08x}", checkpointNum)` renders a `uint32_t` as exactly 8
lowercase zero-padded hex digits, most significant first.  `Nat.digitChar`
maps 0-9 to `'0'`-`'9'` and 10-15 to lowercase `'a'`-`'f'`, matching the
`x` (lowercase) format spec.  The `uint32_t` parameter is modelled by the
`n < 2^32` hypotheses of the theorems below. -/
def hexStr (n : Nat) : String :=
  String.mk ((toDigits 8 n).map Nat.digitChar)

/-- Numeric value of one lowercase hex digit character (decoder used to
state the round-trip property; `0` for non-digit characters). -/
def hexVal (c : Char) : Nat :=
  if '0' ≤ c ∧ c ≤ '9' then c.toNat - '0'.toNat
  else if 'a' ≤ c ∧ c ≤ 'f' then c.toNat - 'a'.toNat + 10
  else 0

/-- Decoding a string as big-endian hexadecimal. -/
def decodeHex (s : String) : Nat :=
  s.data.foldl (fun a c => 16 * a + hexVal c) 0

/-- Test for a lowercase hexadecimal digit character. -/
def isLowerHexDigit (c : Char) : Bool :=
  ('0' ≤ c && c ≤ '9') || ('a' ≤ c && c ≤ 'f')

/-- Embedding of the POSIX character class `[[:xdigit:]]` used by the
regex in `fs::hexDir`: digits plus hex letters of either case. -/
def isXdigitChar (c : Char) : Bool :=
  ('0' ≤ c && c ≤ '9') || ('a' ≤ c && c ≤ 'f') || ('A' ≤ c && c ≤ 'F')

/-- Embedding of the ECMAScript regex atom `.` as used by `std::regex`
(the default grammar of `std::regex` is ECMAScript): it matches every
character except the line terminators LF, CR, LINE SEPARATOR and
PARAGRAPH SEPARATOR. -/
def isDotChar (c : Char) : Bool :=
  !(c == '\n' || c == '\r' || c == '\u2028' || c == '\u2029')

/-- Match condition of the regex
`([[:xdigit:]]{2})([[:xdigit:]]{2})([[:xdigit:]]{2}).*` under
`std::regex_match` (whole-string match): at least 6 characters, the first
6 are hex digits, and every remaining character is matched by `.`. -/
def hexDirMatch (l : List Char) : Bool :=
  decide (6 ≤ l.length) && (l.take 6).all isXdigitChar && (l.drop 6).all isDotChar

/-- Embedding of C++ `fs::hexDir` (Fs.cpp:288-297): `std::regex_match`
against `([[:xdigit:]]{2})([[:xdigit:]]{2})([[:xdigit:]]{2}).*` followed
by `assert(matched)`; on a match, the three 2-character capture groups
joined by `"/"`.  The `assert` failure is modelled as `none`. -/
def hexDir (h : String) : Option String :=
  if hexDirMatch h.data then
    some (String.mk (h.data.take 2) ++ "/" ++ String.mk ((h.data.drop 2).take 2) ++
      "/" ++ String.mk ((h.data.drop 4).take 2))
  else
    none

/-- Embedding of C++ `fs::baseName` (Fs.cpp:299-304):
`type + "-" + hexStr + "." + suffix`. -/
def baseName (ty hex suffix : String) : String :=
  ty ++ "-" ++ hex ++ "." ++ suffix

/-- Embedding of C++ `fs::remoteDir` (Fs.cpp:306-310):
`type + "/" + hexDir(hexStr)`; `none` when `hexDir` asserts. -/
def remoteDir (ty hex : String) : Option String :=
  (hexDir hex).map (fun d => ty ++ "/" ++ d)

/-- Embedding of C++ `fs::remoteName` (Fs.cpp:312-317):
`remoteDir(type, hexStr) + "/" + baseName(type, hexStr, suffix)`;
`none` when `hexDir` asserts inside `remoteDir`. -/
def remoteName (ty hex suffix : String) : Option String :=
  (remoteDir ty hex).map (fun d => d ++ "/" ++ baseName ty hex suffix)

/-! ## LockRegistry -/

/-- Process-wide lock table `lockMap` (Fs.cpp:30 and Fs.cpp:150): a map
from path strings to OS handles / file descriptors, embedded as an
association list (the insert in `lockFile` is guarded by a failed `find`,
so reachable tables have pairwise distinct keys, as a `std::map` does by
construction). -/
abbrev LockMap := List (String × Nat)

/-- Handle recorded for `path`, if any (C++ `lockMap.find(path)`). -/
def lookupLock (m : LockMap) (path : String) : Option Nat :=
  (m.find? (fun e => e.1 == path)).map (fun e => e.2)

/-- Errors thrown (as `std::runtime_error`) by the lock registry:
"file is already locked by this process" and "file was not locked". -/
inductive LockErr
  | alreadyLocked
  | notLocked
deriving DecidableEq

/-- Embedding of POSIX `fs::lockFile` (Fs.cpp:152-175).  The outcomes of
the two OS calls are explicit per-call parameters: `openFd` is the result
of `open(path, O_RDWR | O_CREAT, S_IRWXU)` (`some fd`, or `none` for -1)
and `flockOk` the result of `flock(fd, LOCK_EX | LOCK_NB)`.  A path that
is already a key of the table throws; an OS failure returns `false` with
the table unchanged; success records `(path, fd)` and returns `true`. -/
def lockFile (openFd : Option Nat) (flockOk : Bool) (path : String) (m : LockMap) :
    Except LockErr (Bool × LockMap) :=
  if (lookupLock m path).isSome then
    .error .alreadyLocked
  else
    match openFd with
    | none => .ok (false, m)
    | some fd =>
      if flockOk then .ok (true, (path, fd) :: m)
      else .ok (false, m)

/-- Embedding of `fs::unlockFile` (Fs.cpp:177-191 on POSIX; the Windows
branch at Fs.cpp:52-65 has the same table logic): close the recorded
handle and erase the entry, or throw if the path is not a key. -/
def unlockFile (path : String) (m : LockMap) : Except LockErr LockMap :=
  if (lookupLock m path).isSome then
    .ok (m.eraseP (fun e => e.1 == path))
  else
    .error .notLocked

/-- Embedding of Windows `fs::lockFile` (Fs.cpp:32-50): `CreateFile` with
sharing disabled either yields a handle, which is recorded, or fails,
which is the boolean-false outcome; there is no separate flock step. -/
def lockFileW (createHandle : Option Nat) (path : String) (m : LockMap) :
    Except LockErr (Bool × LockMap) :=
  if (lookupLock m path).isSome then
    .error .alreadyLocked
  else
    match createHandle with
    | none => .ok (false, m)
    | some h => .ok (true, (path, h) :: m)

/-- One lock-registry call together with the OS outcomes it observed. -/
inductive FsOp
  | lock (openFd : Option Nat) (flockOk : Bool) (path : String)
  | unlock (path : String)

/-- Effect of one call on the table alone: a thrown error leaves the
table exactly as it was (the C++ throws before any mutation). -/
def applyOp (m : LockMap) : FsOp → LockMap
  | .lock openFd flockOk path =>
    match lockFile openFd flockOk path m with
    | .ok (_, m') => m'
    | .error _ => m
  | .unlock path =>
    match unlockFile path m with
    | .ok m' => m'
    | .error _ => m

/-- Table reached from the empty table (process start) after a sequence
of calls. -/
def runOps (ops : List FsOp) : LockMap :=
  ops.foldl applyOp []

/-- Keys of the lock table. -/
def lockKeys (m : LockMap) : List String :=
  m.map (fun e => e.1)

/-- POSIX process/filesystem state relevant to the lock registry: the
lock table, the open file descriptors, and the paths at which a file
exists. -/
structure PosixFsState where
  lockMap : LockMap
  openFds : List Nat
  files : List String
deriving DecidableEq

/-- Embedding of POSIX `fs::lockFile` together with its filesystem
effects: `open(path, O_RDWR | O_CREAT, S_IRWXU)` creates the file if
absent and yields a descriptor; a failed `flock` closes the descriptor
again (the file, possibly just created, stays). -/
def lockFileP (openFd : Option Nat) (flockOk : Bool) (path : String) (st : PosixFsState) :
    Except LockErr (Bool × PosixFsState) :=
  if (lookupLock st.lockMap path).isSome then
    .error .alreadyLocked
  else
    match openFd with
    | none => .ok (false, st)
    | some fd =>
      let stOpen : PosixFsState :=
        { st with
          files := if st.files.contains path then st.files else path :: st.files,
          openFds := fd :: st.openFds }
      if flockOk then
        .ok (true, { stOpen with lockMap := (path, fd) :: stOpen.lockMap })
      else
        .ok (false, { stOpen with openFds := stOpen.openFds.erase fd })

/-- Embedding of POSIX `fs::unlockFile` with its filesystem effects:
close the recorded descriptor and erase the table entry.  The source
explicitly does not unlink the file ("cannot unlink to avoid potential
race", Fs.cpp:183), so `files` is untouched. -/
def unlockFileP (path : String) (st : PosixFsState) : Except LockErr PosixFsState :=
  match lookupLock st.lockMap path with
  | some fd =>
    .ok { lockMap := st.lockMap.eraseP (fun e => e.1 == path),
          openFds := st.openFds.erase fd,
          files := st.files }
  | none => .error .notLocked

/-- Windows analogue of `PosixFsState`; every handle in the table was
opened with FILE_FLAG_DELETE_ON_CLOSE. -/
structure WinFsState where
  lockMap : LockMap
  openHandles : List Nat
  files : List String
deriving DecidableEq

/-- Embedding of Windows `fs::lockFile` (Fs.cpp:32-50) with its
filesystem effects: `CreateFile(path, GENERIC_WRITE, 0, NULL,
CREATE_ALWAYS, FILE_ATTRIBUTE_NORMAL | FILE_ATTRIBUTE_TEMPORARY |
FILE_FLAG_DELETE_ON_CLOSE, NULL)` creates or truncates the file and
yields a handle that carries the delete-on-close flag. -/
def lockFileWF (createHandle : Option Nat) (path : String) (st : WinFsState) :
    Except LockErr (Bool × WinFsState) :=
  if (lookupLock st.lockMap path).isSome then
    .error .alreadyLocked
  else
    match createHandle with
    | none => .ok (false, st)
    | some h =>
      .ok (true,
        { lockMap := (path, h) :: st.lockMap,
          openHandles := h :: st.openHandles,
          files := if st.files.contains path then st.files else path :: st.files })

/-- Embedding of Windows `fs::unlockFile` (Fs.cpp:52-65) with its
filesystem effects: `CloseHandle` closes the only handle of a file that
was opened with FILE_FLAG_DELETE_ON_CLOSE, so the OS removes the file at
that point (documented semantics of the flag). -/
def unlockFileWF (path : String) (st : WinFsState) : Except LockErr WinFsState :=
  match lookupLock st.lockMap path with
  | some h =>
    .ok { lockMap := st.lockMap.eraseP (fun e => e.1 == path),
          openHandles := st.openHandles.erase h,
          files := st.files.erase path }
  | none => .error .notLocked

/-! ## PathOps -/

/-- Result of one `stat` / `GetFileAttributes` query, at the granularity
the code distinguishes: success, failure with the branch's not-found code
(`errno == ENOENT` on POSIX, `GetLastError() == ERROR_FILE_NOT_FOUND` on
Windows), or failure with any other code. -/
inductive StatRes
  | found
  | errNotFound
  | errOther
deriving DecidableEq

/-- Embedding of POSIX `fs::exists` (Fs.cpp:193-210): `stat` failing with
ENOENT gives `false`; any other `stat` failure throws
`"error accessing path: " + name`; success gives `true`. -/
def fsExistsPosix (name : String) (r : StatRes) : Except String Bool :=
  match r with
  | .found => .ok true
  | .errNotFound => .ok false
  | .errOther => .error ("error accessing path: " ++ name)

/-- Embedding of Windows `fs::exists` (Fs.cpp:67-86): an empty name gives
`false` without querying; otherwise `GetFileAttributes` failing with
ERROR_FILE_NOT_FOUND gives `false`, any other failure throws, success
gives `true`. -/
def fsExistsWin (name : String) (r : StatRes) : Except String Bool :=
  if name = "" then .ok false
  else
    match r with
    | .found => .ok true
    | .errNotFound => .ok false
    | .errOther => .error ("error accessing path: " ++ name)

/-- Existence check as `mkpath` uses it, on the happy path of
`fs::exists` (the query succeeds or reports not-found), over an explicit
filesystem: a file or directory exists at `name` iff `name` is one of
the existing paths.  `stat("")` fails with ENOENT on POSIX, so the empty
path never exists. -/
def fsExistsB (fs : List String) (name : String) : Bool :=
  name != "" && fs.contains name

/-- Embedding of `fs::mkdir` (Fs.cpp:212-218): `::mkdir(name, 0700)`
fails on the empty path (ENOENT) and on an existing path (EEXIST); for
the remaining cases the oracle `ok` decides whether the OS permits the
creation (permissions, missing parent directory, and so on).  On success
the directory is added to the filesystem. -/
def mkdir (ok : String → List String → Bool) (name : String) (fs : List String) :
    Bool × List String :=
  if name = "" then (false, fs)
  else if fs.contains name then (false, fs)
  else if ok name fs then (true, name :: fs)
  else (false, fs)

/-- Scan for a slash: `findSlashGo l i` is the index, counted from `i`,
of the first `'/'` in `l`. -/
def findSlashGo : List Char → Nat → Option Nat
  | [], _ => none
  | c :: l, i => if c = '/' then some i else findSlashGo l (i + 1)

/-- Embedding of `path.find('/', pos)` (Fs.cpp:270): index of the first
`'/'` at position `pos` or later, `none` for `npos`. -/
def findSlash (l : List Char) (pos : Nat) : Option Nat :=
  findSlashGo (l.drop pos) pos

/-- Loop of `fs::mkpath` (Fs.cpp:264-280), one recursion step per
iteration: while `pos < path.length()`, move `pos` to the next `'/'` (or
to the length when there is none), take the prefix `path.substr(0, pos)`;
if it neither exists nor can be created, return false, else continue
after the slash.  The `fuel` argument only bounds the number of
iterations: `mkpath` passes `path.length + 1` and every iteration
increases `pos` by at least one, so the fuel is never exhausted. -/
def mkpathGo (ok : String → List String → Bool) (path : List Char) :
    Nat → List String → Nat → Bool × List String
  | 0, fs, _ => (true, fs)
  | fuel + 1, fs, pos =>
    if pos < path.length then
      let cut := (findSlash path pos).getD path.length
      let pre := String.mk (path.take cut)
      if fsExistsB fs pre then
        mkpathGo ok path fuel fs (cut + 1)
      else
        let r := mkdir ok pre fs
        if r.1 then mkpathGo ok path fuel r.2 (cut + 1)
        else (false, r.2)
    else (true, fs)

/-- Embedding of `fs::mkpath` (Fs.cpp:264-280). -/
def mkpath (ok : String → List String → Bool) (path : String) (fs : List String) :
    Bool × List String :=
  mkpathGo ok path.data (path.data.length + 1) fs 0

/-- Positions at which the `mkpath` loop checks a prefix of `path`: every
index of a `'/'`, plus the full length when the path is nonempty and does
not end in `'/'`.  The prefix directories of `path` are exactly
`path.take i` for the boundary positions `i`. -/
def isBoundary (l : List Char) (i : Nat) : Prop :=
  (i < l.length ∧ l.getD i ' ' = '/') ∨
    (i = l.length ∧ 0 < l.length ∧ l.getD (l.length - 1) ' ' ≠ '/')

/-! ### Arithmetic and digit lemmas for `hexStr` -/

theorem toDigits_length (k n : Nat) : (toDigits k n).length = k := by
  induction k generalizing n with
  | zero => rfl
  | succ k ih => simp [toDigits, ih]

theorem toDigits_mem_lt (k n : Nat) : ∀ d ∈ toDigits k n, d < 16 := by
  induction k generalizing n with
  | zero => intro d hd; simp [toDigits] at hd
  | succ k ih =>
    intro d hd
    simp only [toDigits, List.mem_cons] at hd
    rcases hd with h | h
    · subst h; exact Nat.mod_lt _ (by norm_num)
    · exact ih n d h

theorem hexVal_digitChar : ∀ d, d < 16 → hexVal (Nat.digitChar d) = d := by decide

theorem isLowerHexDigit_digitChar : ∀ d, d < 16 → isLowerHexDigit (Nat.digitChar d) = true := by
  decide

theorem digitChar_lt_iff :
    ∀ x, x < 16 → ∀ y, y < 16 → (Nat.digitChar x < Nat.digitChar y ↔ x < y) := by decide

theorem digitChar_inj_iff :
    ∀ x, x < 16 → ∀ y, y < 16 → (Nat.digitChar x = Nat.digitChar y ↔ x = y) := by decide

theorem toDigits_foldl (k : Nat) : ∀ a n : Nat,
    ((toDigits k n).map Nat.digitChar).foldl (fun acc c => 16 * acc + hexVal c) a =
      a * 16 ^ k + n % 16 ^ k := by
  induction k with
  | zero => intro a n; simp [toDigits, Nat.mod_one]
  | succ k ih =>
    intro a n
    have hd : n / 16 ^ k % 16 < 16 := Nat.mod_lt _ (by norm_num)
    have hmod : n % 16 ^ (k + 1) = n % 16 ^ k + 16 ^ k * (n / 16 ^ k % 16) := by
      calc n % 16 ^ (k + 1) = n % (16 ^ k * 16) := by rw [pow_succ]
        _ = n % 16 ^ k + 16 ^ k * (n / 16 ^ k % 16) := Nat.mod_mul
    simp only [toDigits, List.map_cons, List.foldl_cons, hexVal_digitChar _ hd, ih]
    rw [hmod]
    ring

theorem toDigits_mod (k : Nat) : ∀ n : Nat, toDigits k (n % 16 ^ k) = toDigits k n := by
  induction k with
  | zero => intro n; rfl
  | succ k ih =>
    intro n
    have hdvd : (16 : Nat) ^ k ∣ 16 ^ (k + 1) := pow_dvd_pow 16 (Nat.le_succ k)
    have hhead : n % 16 ^ (k + 1) / 16 ^ k % 16 = n / 16 ^ k % 16 := by
      have h1 : n % 16 ^ (k + 1) / 16 ^ k = n / 16 ^ k % 16 := by
        calc n % 16 ^ (k + 1) / 16 ^ k = n % (16 ^ k * 16) / 16 ^ k := by rw [pow_succ]
          _ = n / 16 ^ k % 16 := Nat.mod_mul_right_div_self n (16 ^ k) 16
      rw [h1]
      omega
    have htail : toDigits k (n % 16 ^ (k + 1)) = toDigits k n := by
      calc toDigits k (n % 16 ^ (k + 1)) = toDigits k (n % 16 ^ (k + 1) % 16 ^ k) := (ih _).symm
        _ = toDigits k (n % 16 ^ k) := by rw [Nat.mod_mod_of_dvd n hdvd]
        _ = toDigits k n := ih n
    simp only [toDigits, hhead, htail]

theorem base_block_lt (e qa ra qb rb : Nat) (hra : ra < e) (hrb : rb < e) :
    e * qa + ra < e * qb + rb ↔ qa < qb ∨ (qa = qb ∧ ra < rb) := by
  constructor
  · intro h
    rcases Nat.lt_trichotomy qa qb with hq | hq | hq
    · exact Or.inl hq
    · subst hq
      exact Or.inr ⟨rfl, by omega⟩
    · exfalso
      have h2 : e * (qb + 1) ≤ e * qa := Nat.mul_le_mul_left e hq
      have h3 : e * (qb + 1) = e * qb + e := by ring
      omega
  · rintro (hq | ⟨rfl, hr⟩)
    · have h2 : e * (qa + 1) ≤ e * qb := Nat.mul_le_mul_left e hq
      have h3 : e * (qa + 1) = e * qa + e := by ring
      omega
    · omega

theorem lex_cons_lt_iff (a b : Char) (as bs : List Char) :
    List.Lex (· < ·) (a :: as) (b :: bs) ↔ a < b ∨ (a = b ∧ List.Lex (· < ·) as bs) := by
  constructor
  · intro h
    cases h with
    | cons h => exact Or.inr ⟨rfl, h⟩
    | rel h => exact Or.inl h
  · rintro (h | ⟨rfl, h⟩)
    · exact List.Lex.rel h
    · exact List.Lex.cons h

theorem toDigits_lex_iff (k : Nat) : ∀ a b : Nat, a < 16 ^ k → b < 16 ^ k →
    (List.Lex (· < ·) ((toDigits k a).map Nat.digitChar) ((toDigits k b).map Nat.digitChar) ↔
      a < b) := by
  induction k with
  | zero =>
    intro a b ha hb
    interval_cases a
    interval_cases b
    simp only [toDigits, List.map_nil]
    constructor
    · intro h; cases h
    · intro h; omega
  | succ k ih =>
    intro a b ha hb
    have hda : a / 16 ^ k % 16 < 16 := Nat.mod_lt _ (by norm_num)
    have hdb : b / 16 ^ k % 16 < 16 := Nat.mod_lt _ (by norm_num)
    have hra : a % 16 ^ k < 16 ^ k := Nat.mod_lt _ (pow_pos (by norm_num) k)
    have hrb : b % 16 ^ k < 16 ^ k := Nat.mod_lt _ (pow_pos (by norm_num) k)
    have hqa : a / 16 ^ k % 16 = a / 16 ^ k := by
      have : a / 16 ^ k < 16 := by
        apply Nat.div_lt_of_lt_mul
        calc a < 16 ^ (k + 1) := ha
          _ = 16 ^ k * 16 := pow_succ 16 k
      exact Nat.mod_eq_of_lt this
    have hqb : b / 16 ^ k % 16 = b / 16 ^ k := by
      have : b / 16 ^ k < 16 := by
        apply Nat.div_lt_of_lt_mul
        calc b < 16 ^ (k + 1) := hb
          _ = 16 ^ k * 16 := pow_succ 16 k
      exact Nat.mod_eq_of_lt this
    have htails : List.Lex (· < ·) ((toDigits k a).map Nat.digitChar)
        ((toDigits k b).map Nat.digitChar) ↔ a % 16 ^ k < b % 16 ^ k := by
      rw [← toDigits_mod k a, ← toDigits_mod k b]
      exact ih (a % 16 ^ k) (b % 16 ^ k) hra hrb
    have hsplit : a < b ↔ a / 16 ^ k < b / 16 ^ k ∨
        (a / 16 ^ k = b / 16 ^ k ∧ a % 16 ^ k < b % 16 ^ k) := by
      have hea : 16 ^ k * (a / 16 ^ k) + a % 16 ^ k = a := Nat.div_add_mod a (16 ^ k)
      have heb : 16 ^ k * (b / 16 ^ k) + b % 16 ^ k = b := Nat.div_add_mod b (16 ^ k)
      calc a < b ↔ 16 ^ k * (a / 16 ^ k) + a % 16 ^ k < 16 ^ k * (b / 16 ^ k) + b % 16 ^ k := by
            rw [hea, heb]
        _ ↔ _ := base_block_lt (16 ^ k) _ _ _ _ hra hrb
    simp only [toDigits, List.map_cons]
    rw [lex_cons_lt_iff, htails, digitChar_lt_iff _ hda _ hdb, digitChar_inj_iff _ hda _ hdb,
      hqa, hqb, hsplit]

theorem all_take_iff_getD (p : Char → Bool) :
    ∀ (l : List Char) (k : Nat), k ≤ l.length →
      ((l.take k).all p = true ↔ ∀ i, i < k → p (l.getD i ' ') = true)
  | _, 0, _ => by simp
  | [], k + 1, h => by simp at h
  | c :: l, k + 1, h => by
    have ih := all_take_iff_getD p l k (by simpa using h)
    simp only [List.take_succ_cons, List.all_cons, Bool.and_eq_true, ih]
    constructor
    · rintro ⟨hc, hrest⟩ i hi
      cases i with
      | zero => exact hc
      | succ i => exact hrest i (by omega)
    · intro hall
      exact ⟨hall 0 (by omega), fun i hi => hall (i + 1) (by omega)⟩

theorem all_drop_iff_getD (p : Char → Bool) :
    ∀ (l : List Char) (k : Nat),
      ((l.drop k).all p = true ↔ ∀ i, k ≤ i → i < l.length → p (l.getD i ' ') = true)
  | l, 0 => by
    rw [List.drop_zero, List.all_eq_true]
    constructor
    · intro hall i _ hi
      rw [List.getD_eq_getElem l ' ' hi]
      exact hall _ (List.getElem_mem hi)
    · intro hind x hx
      rcases List.mem_iff_getElem.mp hx with ⟨i, hi, rfl⟩
      have := hind i (by omega) hi
      rwa [List.getD_eq_getElem l ' ' hi] at this
  | [], k + 1 => by simp
  | c :: l, k + 1 => by
    have ih := all_drop_iff_getD p l k
    simp only [List.drop_succ_cons, ih, List.length_cons]
    constructor
    · intro hall i hk hi
      cases i with
      | zero => omega
      | succ i => exact hall i (by omega) (by omega)
    · intro hall i hk hi
      exact hall (i + 1) (by omega) (by omega)

theorem hexDir_segments : ∀ (l : List Char), 6 ≤ l.length →
    String.mk (l.take 2) ++ "/" ++ String.mk ((l.drop 2).take 2) ++ "/" ++
        String.mk ((l.drop 4).take 2) =
      String.mk [l.getD 0 ' ', l.getD 1 ' ', '/', l.getD 2 ' ', l.getD 3 ' ', '/',
        l.getD 4 ' ', l.getD 5 ' ']
  | _ :: _ :: _ :: _ :: _ :: _ :: _, _ => rfl
  | [], h | [_], h | [_, _], h | [_, _, _], h | [_, _, _, _], h | [_, _, _, _, _], h => by
    simp at h

theorem isDotChar_of_isXdigitChar (c : Char) (h : isXdigitChar c = true) :
    isDotChar c = true := by
  by_contra hc
  have hfalse : isDotChar c = false := by
    cases hx : isDotChar c
    · rfl
    · exact absurd hx hc
  rw [isDotChar] at hfalse
  simp only [Bool.not_eq_false', Bool.or_eq_true, beq_iff_eq] at hfalse
  rcases hfalse with ((rfl | rfl) | rfl) | rfl <;> exact absurd h (by decide)

theorem hexDirMatch_iff_getD (l : List Char) :
    hexDirMatch l = true ↔
      (6 ≤ l.length ∧ (∀ i, i < 6 → isXdigitChar (l.getD i ' ') = true) ∧
        (∀ i, 6 ≤ i → i < l.length → isDotChar (l.getD i ' ') = true)) := by
  by_cases hlen : 6 ≤ l.length
  · simp only [hexDirMatch, Bool.and_eq_true, decide_eq_true_eq,
      all_take_iff_getD isXdigitChar l 6 hlen, all_drop_iff_getD isDotChar l 6]
    tauto
  · constructor
    · intro hm
      simp only [hexDirMatch, Bool.and_eq_true, decide_eq_true_eq] at hm
      exact absurd hm.1.1 hlen
    · intro hc
      exact absurd hc.1 hlen

/-- C4: for every id below 2^32, `hexStr id` has length exactly 8, consists
only of lowercase hexadecimal digit characters, decoding it as hexadecimal
yields id exactly, and the zero-padded rendering makes numeric order agree
with lexicographic string order (hence it is injective). -/
theorem hexStr_spec (a : Nat) (ha : a < 2 ^ 32) :
    (hexStr a).length = 8 ∧
    (∀ c ∈ (hexStr a).data, isLowerHexDigit c = true) ∧
    decodeHex (hexStr a) = a ∧
    (∀ b : Nat, b < 2 ^ 32 → (a < b ↔ hexStr a < hexStr b)) := by
  have h16 : (2 : Nat) ^ 32 = 16 ^ 8 := by norm_num
  have ha' : a < 16 ^ 8 := h16 ▸ ha
  refine ⟨?_, ?_, ?_, ?_⟩
  · show ((toDigits 8 a).map Nat.digitChar).length = 8
    rw [List.length_map, toDigits_length]
  · intro c hc
    rcases List.mem_map.mp hc with ⟨d, hd, rfl⟩
    exact isLowerHexDigit_digitChar d (toDigits_mem_lt 8 a d hd)
  · show ((toDigits 8 a).map Nat.digitChar).foldl (fun acc c => 16 * acc + hexVal c) 0 = a
    rw [toDigits_foldl, Nat.zero_mul, Nat.zero_add]
    exact Nat.mod_eq_of_lt ha'
  · intro b hb
    have hb' : b < 16 ^ 8 := h16 ▸ hb
    have hlex := toDigits_lex_iff 8 a b ha' hb'
    rw [String.lt_iff_toList_lt]
    have hlt : (hexStr a).toList < (hexStr b).toList ↔
        List.Lex (· < ·) ((toDigits 8 a).map Nat.digitChar)
          ((toDigits 8 b).map Nat.digitChar) :=
      Iff.rfl
    rw [hlt]
    exact hlex.symm

/-- Witness for C4 at the spec's own example value 0x1a2b3c4d. -/
theorem hexStr_spec_witness :
    (0x1a2b3c4d : Nat) < 2 ^ 32 ∧
      ((hexStr 0x1a2b3c4d).length = 8 ∧
        (∀ c ∈ (hexStr 0x1a2b3c4d).data, isLowerHexDigit c = true) ∧
        decodeHex (hexStr 0x1a2b3c4d) = 0x1a2b3c4d ∧
        (∀ b : Nat, b < 2 ^ 32 → (0x1a2b3c4d < b ↔ hexStr 0x1a2b3c4d < hexStr b))) :=
  ⟨by norm_num, hexStr_spec 0x1a2b3c4d (by norm_num)⟩

/-- C10: `hexDir` accepts uppercase as well as lowercase hexadecimal
digits in the first six positions (the `[[:xdigit:]]` class is
case-insensitive) and returns the segments with their original case
preserved: for every input whose first six characters are hex digits of
either case (and whose remaining characters the regex `.` matches), the
result consists of those very six characters, unchanged, as three
"/"-separated pairs — e.g. "1A2B3C" yields "1A/2B/3C" — even though
`hexStr` itself only ever produces lowercase digits. -/
theorem hexDir_uppercase :
    (∀ h : String, 6 ≤ h.data.length →
      (∀ i, i < 6 → isXdigitChar (h.data.getD i ' ') = true) →
      (∀ i, 6 ≤ i → i < h.data.length → isDotChar (h.data.getD i ' ') = true) →
      hexDir h = some (String.mk [h.data.getD 0 ' ', h.data.getD 1 ' ', '/',
        h.data.getD 2 ' ', h.data.getD 3 ' ', '/',
        h.data.getD 4 ' ', h.data.getD 5 ' '])) ∧
    hexDir "1A2B3C" = some "1A/2B/3C" ∧
    (∀ n : Nat, ∀ c ∈ (hexStr n).data, isLowerHexDigit c = true) := by
  refine ⟨?_, by decide, ?_⟩
  · intro h hlen hx hd
    have hm : hexDirMatch h.data = true :=
      (hexDirMatch_iff_getD h.data).mpr ⟨hlen, hx, hd⟩
    rw [hexDir, if_pos hm, hexDir_segments h.data hlen]
  · intro n c hc
    rcases List.mem_map.mp hc with ⟨d, hd, rfl⟩
    exact isLowerHexDigit_digitChar d (toDigits_mem_lt 8 n d hd)

/-- Witness for C10 at the concrete uppercase input "1A2B3C4D". -/
theorem hexDir_uppercase_witness :
    6 ≤ ("1A2B3C4D" : String).data.length ∧
      (∀ i, i < 6 → isXdigitChar (("1A2B3C4D" : String).data.getD i ' ') = true) ∧
      (∀ i, 6 ≤ i → i < ("1A2B3C4D" : String).data.length →
        isDotChar (("1A2B3C4D" : String).data.getD i ' ') = true) ∧
      hexDir "1A2B3C4D" = some (String.mk [("1A2B3C4D" : String).data.getD 0 ' ',
        ("1A2B3C4D" : String).data.getD 1 ' ', '/',
        ("1A2B3C4D" : String).data.getD 2 ' ', ("1A2B3C4D" : String).data.getD 3 ' ', '/',
        ("1A2B3C4D" : String).data.getD 4 ' ', ("1A2B3C4D" : String).data.getD 5 ' ']) :=
  ⟨by decide, by decide, by decide,
    hexDir_uppercase.1 "1A2B3C4D" (by decide) (by decide) (by decide)⟩

/-- C5 counterexample: the string "1a2b3c\n" begins with 6 hexadecimal
digit characters, yet `hexDir` fails its assert on it: `std::regex_match`
must match the whole string and the trailing `.*` of the pattern cannot
match the newline character (the ECMAScript `.` excludes line
terminators). -/
theorem hexDir_counterexample :
    6 ≤ (String.mk ['1', 'a', '2', 'b', '3', 'c', '\n']).data.length ∧
      (∀ i, i < 6 →
        isXdigitChar ((String.mk ['1', 'a', '2', 'b', '3', 'c', '\n']).data.getD i ' ') = true) ∧
      hexDir (String.mk ['1', 'a', '2', 'b', '3', 'c', '\n']) = none := by decide

/-- C5 (amended): `hexDir h` succeeds, returning the first three
2-character segments of `h` joined by "/", exactly when `h` has at least 6
characters, its first 6 characters are hexadecimal digits, and every
character from position 6 on is matched by the regex atom `.` (i.e. is not
a line terminator); in particular it fails the contract check whenever `h`
is shorter than 6 characters or has a non-hex character among the first
6. -/
theorem hexDir_spec (h : String) :
    (hexDir h = some (String.mk [h.data.getD 0 ' ', h.data.getD 1 ' ', '/',
          h.data.getD 2 ' ', h.data.getD 3 ' ', '/',
          h.data.getD 4 ' ', h.data.getD 5 ' ']) ↔
        (6 ≤ h.data.length ∧
          (∀ i, i < 6 → isXdigitChar (h.data.getD i ' ') = true) ∧
          (∀ i, 6 ≤ i → i < h.data.length → isDotChar (h.data.getD i ' ') = true))) ∧
      ((h.data.length < 6 ∨ ∃ i, i < 6 ∧ isXdigitChar (h.data.getD i ' ') = false) →
        hexDir h = none) := by
  constructor
  · constructor
    · intro hsome
      have hm : hexDirMatch h.data = true := by
        by_contra hm
        rw [hexDir, if_neg hm] at hsome
        exact Option.noConfusion hsome
      exact (hexDirMatch_iff_getD h.data).mp hm
    · intro hcond
      have hm : hexDirMatch h.data = true := (hexDirMatch_iff_getD h.data).mpr hcond
      rw [hexDir, if_pos hm, hexDir_segments h.data hcond.1]
  · intro hbad
    have hm : hexDirMatch h.data = false := by
      cases hx : hexDirMatch h.data
      · rfl
      · exfalso
        rcases (hexDirMatch_iff_getD h.data).mp hx with ⟨h1, h2, h3⟩
        rcases hbad with hshort | ⟨i, hi, hbadi⟩
        · omega
        · rw [h2 i hi] at hbadi
          exact Bool.noConfusion hbadi
    rw [hexDir, if_neg (by rw [hm]; exact Bool.noConfusion)]

/-- Witness for C5 (amended) at the spec's example "1a2b3c4d". -/
theorem hexDir_spec_witness :
    hexDir "1a2b3c4d" = some "1a/2b/3c" ∧
      ((hexDir "1a2b3c4d" = some (String.mk ["1a2b3c4d".data.getD 0 ' ',
            "1a2b3c4d".data.getD 1 ' ', '/', "1a2b3c4d".data.getD 2 ' ',
            "1a2b3c4d".data.getD 3 ' ', '/', "1a2b3c4d".data.getD 4 ' ',
            "1a2b3c4d".data.getD 5 ' ']) ↔
          (6 ≤ "1a2b3c4d".data.length ∧
            (∀ i, i < 6 → isXdigitChar ("1a2b3c4d".data.getD i ' ') = true) ∧
            (∀ i, 6 ≤ i → i < "1a2b3c4d".data.length →
              isDotChar ("1a2b3c4d".data.getD i ' ') = true))) ∧
        (("1a2b3c4d".data.length < 6 ∨
            ∃ i, i < 6 ∧ isXdigitChar ("1a2b3c4d".data.getD i ' ') = false) →
          hexDir "1a2b3c4d" = none)) :=
  ⟨by decide, hexDir_spec "1a2b3c4d"⟩

/-- C6: for every type string, every valid 8-character hex string and
every suffix, `remoteDir` succeeds and `remoteName` equals
`remoteDir ++ "/" ++ baseName` (the compositional identity), as on the
spec's example values. -/
theorem remoteName_spec (t hx s : String) (hlen : hx.length = 8)
    (hhex : ∀ c ∈ hx.data, isXdigitChar c = true) :
    (∃ d, remoteDir t hx = some d ∧
        remoteName t hx s = some (d ++ "/" ++ baseName t hx s)) ∧
      remoteName "ledger" "1a2b3c4d" "xdr" = some "ledger/1a/2b/3c/ledger-1a2b3c4d.xdr" := by
  have hdl : hx.data.length = 8 := hlen
  have hm : hexDirMatch hx.data = true := by
    simp only [hexDirMatch, Bool.and_eq_true, decide_eq_true_eq]
    refine ⟨⟨by omega, ?_⟩, ?_⟩
    · rw [List.all_eq_true]
      intro x hxm
      exact hhex x (List.mem_of_mem_take hxm)
    · rw [List.all_eq_true]
      intro x hxm
      exact isDotChar_of_isXdigitChar x (hhex x (List.mem_of_mem_drop hxm))
  have hsome : ∃ g, hexDir hx = some g := by
    rw [hexDir, if_pos hm]
    exact ⟨_, rfl⟩
  rcases hsome with ⟨g, hg⟩
  constructor
  · refine ⟨t ++ "/" ++ g, ?_, ?_⟩
    · rw [remoteDir, hg]
      rfl
    · rw [remoteName, remoteDir, hg]
      rfl
  · decide

/-- Witness for C6 at the spec's example values. -/
theorem remoteName_spec_witness :
    ("1a2b3c4d" : String).length = 8 ∧
      (∀ c ∈ ("1a2b3c4d" : String).data, isXdigitChar c = true) ∧
      ((∃ d, remoteDir "ledger" "1a2b3c4d" = some d ∧
          remoteName "ledger" "1a2b3c4d" "xdr" =
            some (d ++ "/" ++ baseName "ledger" "1a2b3c4d" "xdr")) ∧
        remoteName "ledger" "1a2b3c4d" "xdr" = some "ledger/1a/2b/3c/ledger-1a2b3c4d.xdr") :=
  ⟨by decide, by decide, remoteName_spec "ledger" "1a2b3c4d" "xdr" (by decide) (by decide)⟩

/-! ### Lock registry lemmas -/

theorem lookupLock_cons_self (p : String) (fd : Nat) (m : LockMap) :
    lookupLock ((p, fd) :: m) p = some fd := by
  simp [lookupLock, List.find?_cons]

theorem eraseP_cons_self (p : String) (fd : Nat) (m : LockMap) :
    List.eraseP (fun e => e.1 == p) ((p, fd) :: m) = m := by
  simp [List.eraseP_cons]

theorem lookupLock_eq_none_iff (m : LockMap) (p : String) :
    lookupLock m p = none ↔ p ∉ lockKeys m := by
  rw [lookupLock, Option.map_eq_none', List.find?_eq_none]
  constructor
  · intro h hmem
    rcases List.mem_map.mp hmem with ⟨e, he, heq⟩
    exact h e he (beq_iff_eq.mpr heq)
  · intro h e he hbeq
    exact h (List.mem_map.mpr ⟨e, he, beq_iff_eq.mp hbeq⟩)

theorem lockFile_cases (o : Option Nat) (f : Bool) (path : String) (m : LockMap) :
    ((lookupLock m path).isSome ∧ lockFile o f path m = .error .alreadyLocked) ∨
      lockFile o f path m = .ok (false, m) ∨
      (∃ fd, o = some fd ∧ f = true ∧ lookupLock m path = none ∧
        lockFile o f path m = .ok (true, (path, fd) :: m)) := by
  by_cases hl : (lookupLock m path).isSome
  · exact Or.inl ⟨hl, by simp [lockFile.eq_def, hl]⟩
  · cases o with
    | none => exact Or.inr (Or.inl (by simp [lockFile.eq_def, hl]))
    | some fd =>
      cases f with
      | false => exact Or.inr (Or.inl (by simp [lockFile.eq_def, hl]))
      | true =>
        exact Or.inr (Or.inr ⟨fd, rfl, rfl, Option.not_isSome_iff_eq_none.mp hl,
          by simp [lockFile.eq_def, hl]⟩)

theorem lockFileW_cases (o : Option Nat) (path : String) (m : LockMap) :
    ((lookupLock m path).isSome ∧ lockFileW o path m = .error .alreadyLocked) ∨
      lockFileW o path m = .ok (false, m) ∨
      (∃ h, o = some h ∧ lookupLock m path = none ∧
        lockFileW o path m = .ok (true, (path, h) :: m)) := by
  by_cases hl : (lookupLock m path).isSome
  · exact Or.inl ⟨hl, by simp [lockFileW.eq_def, hl]⟩
  · cases o with
    | none => exact Or.inr (Or.inl (by simp [lockFileW.eq_def, hl]))
    | some h =>
      exact Or.inr (Or.inr ⟨h, rfl, Option.not_isSome_iff_eq_none.mp hl,
        by simp [lockFileW.eq_def, hl]⟩)

theorem lockFile_ok_true (o : Option Nat) (f : Bool) (path : String) (m m' : LockMap)
    (h : lockFile o f path m = .ok (true, m')) :
    lookupLock m path = none ∧ ∃ fd, o = some fd ∧ f = true ∧ m' = (path, fd) :: m := by
  rcases lockFile_cases o f path m with ⟨hl, he⟩ | hfalse | ⟨fd, ho, hf, hl, hok⟩
  · rw [he] at h
    exact Except.noConfusion h
  · rw [hfalse] at h
    simp at h
  · rw [hok] at h
    simp only [Except.ok.injEq, Prod.mk.injEq, true_and] at h
    exact ⟨hl, fd, ho, hf, h.symm⟩

theorem lockFileW_ok_true (o : Option Nat) (path : String) (m m' : LockMap)
    (h : lockFileW o path m = .ok (true, m')) :
    lookupLock m path = none ∧ ∃ hd, o = some hd ∧ m' = (path, hd) :: m := by
  rcases lockFileW_cases o path m with ⟨hl, he⟩ | hfalse | ⟨hd, ho, hl, hok⟩
  · rw [he] at h
    exact Except.noConfusion h
  · rw [hfalse] at h
    simp at h
  · rw [hok] at h
    simp only [Except.ok.injEq, Prod.mk.injEq, true_and] at h
    exact ⟨hl, hd, ho, h.symm⟩

theorem unlockFile_ok (path : String) (m m' : LockMap) (h : unlockFile path m = .ok m') :
    (lookupLock m path).isSome ∧ m' = m.eraseP (fun e => e.1 == path) := by
  rw [unlockFile] at h
  by_cases hl : (lookupLock m path).isSome
  · rw [if_pos hl] at h
    simp only [Except.ok.injEq] at h
    exact ⟨hl, h.symm⟩
  · rw [if_neg hl] at h
    exact Except.noConfusion h

/-- C1: acquiring a path that this process already holds throws the
programming-error outcome alreadyLocked (not a boolean false); acquiring,
releasing, then re-acquiring a path succeeds both times; and releasing a
path that is not a key of the lock table throws notLocked — on the POSIX
branch, and likewise for the Windows `CreateFile` branch. -/
theorem lockFile_spec :
    (∀ o1 f1 o2 f2 path m m', lockFile o1 f1 path m = .ok (true, m') →
      lockFile o2 f2 path m' = .error .alreadyLocked) ∧
    (∀ path m fd fd', lookupLock m path = none →
      ∃ m1 m2, lockFile (some fd) true path m = .ok (true, m1) ∧
        unlockFile path m1 = .ok m2 ∧
        lockFile (some fd') true path m2 = .ok (true, (path, fd') :: m2)) ∧
    (∀ path m, lookupLock m path = none → unlockFile path m = .error .notLocked) ∧
    (∀ o1 o2 path m m', lockFileW o1 path m = .ok (true, m') →
      lockFileW o2 path m' = .error .alreadyLocked) ∧
    (∀ path m h h', lookupLock m path = none →
      ∃ m1 m2, lockFileW (some h) path m = .ok (true, m1) ∧
        unlockFile path m1 = .ok m2 ∧
        lockFileW (some h') path m2 = .ok (true, (path, h') :: m2)) := by
  have hnone : ∀ m path, lookupLock m path = none → ¬(lookupLock m path).isSome = true := by
    intro m path h
    rw [h]
    simp
  refine ⟨?_, ?_, ?_, ?_, ?_⟩
  · intro o1 f1 o2 f2 path m m' hsucc
    rcases lockFile_ok_true o1 f1 path m m' hsucc with ⟨_, fd, _, _, rfl⟩
    have hs : (lookupLock ((path, fd) :: m) path).isSome := by
      rw [lookupLock_cons_self]
      rfl
    simp [lockFile.eq_def, hs]
  · intro path m fd fd' hl
    refine ⟨(path, fd) :: m, m, ?_, ?_, ?_⟩
    · simp [lockFile.eq_def, hnone m path hl]
    · have hs : (lookupLock ((path, fd) :: m) path).isSome := by
        rw [lookupLock_cons_self]
        rfl
      rw [unlockFile, if_pos hs, eraseP_cons_self]
    · simp [lockFile.eq_def, hnone m path hl]
  · intro path m hl
    rw [unlockFile, if_neg (hnone m path hl)]
  · intro o1 o2 path m m' hsucc
    rcases lockFileW_ok_true o1 path m m' hsucc with ⟨_, hd, _, rfl⟩
    have hs : (lookupLock ((path, hd) :: m) path).isSome := by
      rw [lookupLock_cons_self]
      rfl
    simp [lockFileW.eq_def, hs]
  · intro path m h h' hl
    refine ⟨(path, h) :: m, m, ?_, ?_, ?_⟩
    · simp [lockFileW.eq_def, hnone m path hl]
    · have hs : (lookupLock ((path, h) :: m) path).isSome := by
        rw [lookupLock_cons_self]
        rfl
      rw [unlockFile, if_pos hs, eraseP_cons_self]
    · simp [lockFileW.eq_def, hnone m path hl]

/-- Witness for C1: a full acquire, release, re-acquire cycle on a
concrete path from the empty table. -/
theorem lockFile_spec_witness :
    lookupLock ([] : LockMap) "stellar.pid" = none ∧
      ∃ m1 m2, lockFile (some 3) true "stellar.pid" [] = .ok (true, m1) ∧
        unlockFile "stellar.pid" m1 = .ok m2 ∧
        lockFile (some 4) true "stellar.pid" m2 = .ok (true, ("stellar.pid", 4) :: m2) :=
  ⟨rfl, lockFile_spec.2.1 "stellar.pid" [] 3 4 rfl⟩

theorem lockFile_ok_false (o : Option Nat) (f : Bool) (path : String) (m m' : LockMap)
    (h : lockFile o f path m = .ok (false, m')) : m' = m := by
  rcases lockFile_cases o f path m with ⟨hl, he⟩ | hfalse | ⟨fd, ho, hf, hl, hok⟩
  · rw [he] at h
    exact Except.noConfusion h
  · rw [hfalse] at h
    simp only [Except.ok.injEq, Prod.mk.injEq, true_and] at h
    exact h.symm
  · rw [hok] at h
    simp at h

theorem applyOp_lock_eq (m : LockMap) (o : Option Nat) (f : Bool) (path : String) :
    applyOp m (.lock o f path) = m ∨
      (∃ fd, lookupLock m path = none ∧
        lockFile o f path m = .ok (true, (path, fd) :: m) ∧
        applyOp m (.lock o f path) = (path, fd) :: m) := by
  rcases lockFile_cases o f path m with ⟨hl, he⟩ | hfalse | ⟨fd, ho, hf, hl, hok⟩
  · exact Or.inl (by simp [applyOp, he])
  · exact Or.inl (by simp [applyOp, hfalse])
  · exact Or.inr ⟨fd, hl, hok, by simp [applyOp, hok]⟩

theorem applyOp_unlock_eq (m : LockMap) (path : String) :
    applyOp m (.unlock path) = m.eraseP (fun e => e.1 == path) ∨
      (lookupLock m path = none ∧ applyOp m (.unlock path) = m) := by
  by_cases hl : (lookupLock m path).isSome
  · exact Or.inl (by simp [applyOp, unlockFile, hl])
  · exact Or.inr ⟨Option.not_isSome_iff_eq_none.mp hl, by simp [applyOp, unlockFile, hl]⟩

theorem lockKeys_eraseP_sublist (m : LockMap) (q : String) :
    (lockKeys (m.eraseP (fun e => e.1 == q))).Sublist (lockKeys m) := by
  simp only [lockKeys]
  exact List.Sublist.map _ (List.eraseP_sublist m)

theorem applyOp_nodup (m : LockMap) (op : FsOp) (hnd : (lockKeys m).Nodup) :
    (lockKeys (applyOp m op)).Nodup := by
  cases op with
  | lock o f path =>
    rcases applyOp_lock_eq m o f path with he | ⟨fd, hl, _, he⟩
    · rw [he]
      exact hnd
    · rw [he]
      simp only [lockKeys, List.map_cons]
      refine List.nodup_cons.mpr ⟨?_, hnd⟩
      exact (lookupLock_eq_none_iff m path).mp hl
  | unlock path =>
    rcases applyOp_unlock_eq m path with he | ⟨_, he⟩
    · rw [he]
      exact (lockKeys_eraseP_sublist m path).nodup hnd
    · rw [he]
      exact hnd

theorem foldl_applyOp_nodup : ∀ (ops : List FsOp) (m : LockMap),
    (lockKeys m).Nodup → (lockKeys (ops.foldl applyOp m)).Nodup
  | [], _, h => h
  | op :: ops, m, h => foldl_applyOp_nodup ops (applyOp m op) (applyOp_nodup m op h)

theorem mem_lockKeys_eraseP (m : LockMap) (p q : String) (hne : q ≠ p)
    (hq : q ∈ lockKeys m) : q ∈ lockKeys (m.eraseP (fun e => e.1 == p)) := by
  rcases List.mem_map.mp hq with ⟨e, he, heq⟩
  have hpred : ¬((fun x : String × Nat => x.1 == p) e = true) := by
    simp only [beq_iff_eq]
    intro hep
    exact hne (heq ▸ hep)
  have hmem : e ∈ List.eraseP (fun x : String × Nat => x.1 == p) m :=
    (@List.mem_eraseP_of_neg (String × Nat) (fun x => x.1 == p) e m hpred).mpr he
  exact List.mem_map.mpr ⟨e, hmem, heq⟩

/-- C2: starting from the empty table, after every sequence of acquire
and release calls the lock table has pairwise distinct path keys (at most
one entry per path); an acquire that fails because the OS denies the lock
returns false with the table exactly unchanged; a path key appears only
through a fully successful acquire of that very path; and a path key
disappears only through a release of that very path. -/
theorem lockMap_invariant :
    (∀ ops : List FsOp, (lockKeys (runOps ops)).Nodup) ∧
    (∀ o f path m m', lockFile o f path m = .ok (false, m') → m' = m) ∧
    (∀ m op path, path ∈ lockKeys (applyOp m op) → path ∉ lockKeys m →
      ∃ o f m', op = .lock o f path ∧ lockFile o f path m = .ok (true, m')) ∧
    (∀ m op path, path ∈ lockKeys m → path ∉ lockKeys (applyOp m op) →
      op = .unlock path) := by
  refine ⟨?_, lockFile_ok_false, ?_, ?_⟩
  · intro ops
    exact foldl_applyOp_nodup ops [] (by simp [lockKeys])
  · intro m op path hin hout
    cases op with
    | lock o f q =>
      rcases applyOp_lock_eq m o f q with he | ⟨fd, hl, hok, he⟩
      · rw [he] at hin
        exact absurd hin hout
      · rw [he] at hin
        simp only [lockKeys, List.map_cons] at hin
        rcases List.mem_cons.mp hin with heq | hmem
        · subst heq
          exact ⟨o, f, (path, fd) :: m, rfl, hok⟩
        · exact absurd hmem hout
    | unlock q =>
      exfalso
      rcases applyOp_unlock_eq m q with he | ⟨_, he⟩
      · rw [he] at hin
        exact hout (List.Sublist.mem hin (lockKeys_eraseP_sublist m q))
      · rw [he] at hin
        exact hout hin
  · intro m op path hin hout
    cases op with
    | lock o f q =>
      exfalso
      rcases applyOp_lock_eq m o f q with he | ⟨fd, hl, hok, he⟩
      · rw [he] at hout
        exact hout hin
      · rw [he] at hout
        simp only [lockKeys, List.map_cons] at hout
        exact hout (List.mem_cons.mpr (Or.inr hin))
    | unlock q =>
      by_cases hq : q = path
      · rw [hq]
      · exfalso
        rcases applyOp_unlock_eq m q with he | ⟨_, he⟩
        · rw [he] at hout
          exact hout (mem_lockKeys_eraseP m q path (fun hpq => hq hpq.symm) hin)
        · rw [he] at hout
          exact hout hin

/-- Witness for C2: removing the only entry of a concrete table is only
possible through a release of that path. -/
theorem lockMap_invariant_witness :
    "p" ∈ lockKeys [("p", 5)] ∧
      "p" ∉ lockKeys (applyOp [("p", 5)] (.unlock "p")) ∧
      FsOp.unlock "p" = FsOp.unlock "p" :=
  ⟨by decide, by decide,
    lockMap_invariant.2.2.2 [("p", 5)] (.unlock "p") "p" (by decide) (by decide)⟩

theorem lookupLock_eraseP (m : LockMap) (path : String) (hnd : (lockKeys m).Nodup) :
    lookupLock (m.eraseP (fun e => e.1 == path)) path = none := by
  induction m with
  | nil => rfl
  | cons e m ih =>
    simp only [lockKeys, List.map_cons, List.nodup_cons] at hnd
    by_cases he : e.1 = path
    · have hb : (e.1 == path) = true := by simp [he]
      simp only [List.eraseP_cons, hb, cond_true]
      rw [lookupLock_eq_none_iff, ← he]
      exact hnd.1
    · have hb : (e.1 == path) = false := by simp [he]
      simp only [List.eraseP_cons, hb, cond_false, lookupLock, List.find?_cons]
      exact ih hnd.2

theorem unlockFileP_ok (path : String) (st st' : PosixFsState)
    (h : unlockFileP path st = .ok st') :
    ∃ fd, lookupLock st.lockMap path = some fd ∧
      st' = { lockMap := st.lockMap.eraseP (fun e => e.1 == path),
              openFds := st.openFds.erase fd,
              files := st.files } := by
  rw [unlockFileP.eq_def] at h
  cases hl : lookupLock st.lockMap path with
  | some fd =>
    rw [hl] at h
    simp only [Except.ok.injEq] at h
    exact ⟨fd, rfl, h.symm⟩
  | none =>
    rw [hl] at h
    exact Except.noConfusion h

theorem unlockFileWF_ok (path : String) (st st' : WinFsState)
    (h : unlockFileWF path st = .ok st') :
    ∃ hd, lookupLock st.lockMap path = some hd ∧
      st' = { lockMap := st.lockMap.eraseP (fun e => e.1 == path),
              openHandles := st.openHandles.erase hd,
              files := st.files.erase path } := by
  rw [unlockFileWF.eq_def] at h
  cases hl : lookupLock st.lockMap path with
  | some hd =>
    rw [hl] at h
    simp only [Except.ok.injEq] at h
    exact ⟨hd, rfl, h.symm⟩
  | none =>
    rw [hl] at h
    exact Except.noConfusion h

/-- C3 counterexample: on the Windows branch the lock file is opened with
FILE_FLAG_DELETE_ON_CLOSE, so releasing the lock closes the handle and
the OS removes the backing file: after acquiring and then releasing
"stellar.lock" from an empty state, the file no longer exists, refuting
"the file at P still exists after release returns (on every platform
branch)". -/
theorem unlockFileWF_counterexample :
    lockFileWF (some 7) "stellar.lock" ⟨[], [], []⟩ =
        .ok (true, ⟨[("stellar.lock", 7)], [7], ["stellar.lock"]⟩) ∧
      unlockFileWF "stellar.lock" ⟨[("stellar.lock", 7)], [7], ["stellar.lock"]⟩ =
        .ok ⟨[], [], []⟩ ∧
      "stellar.lock" ∉ ([] : List String) := by
  refine ⟨rfl, rfl, ?_⟩
  simp

/-- C3 (amended): releasing a held lock closes the recorded OS handle and
removes the table entry on both branches.  On the POSIX branch the
backing file is never unlinked: the set of existing files is exactly
unchanged.  On the Windows branch the file was opened with
FILE_FLAG_DELETE_ON_CLOSE, so the release removes the backing file. -/
theorem unlockFile_frame (path : String) :
    (∀ st st' : PosixFsState, unlockFileP path st = .ok st' →
      st'.files = st.files ∧
      (∃ fd, lookupLock st.lockMap path = some fd ∧ st'.openFds = st.openFds.erase fd) ∧
      ((lockKeys st.lockMap).Nodup → lookupLock st'.lockMap path = none)) ∧
    (∀ st st' : WinFsState, unlockFileWF path st = .ok st' →
      st'.files = st.files.erase path ∧
      (∃ hd, lookupLock st.lockMap path = some hd ∧
        st'.openHandles = st.openHandles.erase hd) ∧
      ((lockKeys st.lockMap).Nodup → lookupLock st'.lockMap path = none)) := by
  constructor
  · intro st st' h
    rcases unlockFileP_ok path st st' h with ⟨fd, hfd, rfl⟩
    exact ⟨rfl, ⟨fd, hfd, rfl⟩, fun hnd => lookupLock_eraseP st.lockMap path hnd⟩
  · intro st st' h
    rcases unlockFileWF_ok path st st' h with ⟨hd, hfd, rfl⟩
    exact ⟨rfl, ⟨hd, hfd, rfl⟩, fun hnd => lookupLock_eraseP st.lockMap path hnd⟩

/-- Witness for C3 (amended): a concrete POSIX release that keeps the
backing file in place. -/
theorem unlockFile_frame_witness :
    unlockFileP "k" ⟨[("k", 5)], [5], ["k"]⟩ = .ok ⟨[], [], ["k"]⟩ ∧
      ((⟨[], [], ["k"]⟩ : PosixFsState).files =
          (⟨[("k", 5)], [5], ["k"]⟩ : PosixFsState).files ∧
        (∃ fd, lookupLock (⟨[("k", 5)], [5], ["k"]⟩ : PosixFsState).lockMap "k" = some fd ∧
          (⟨[], [], ["k"]⟩ : PosixFsState).openFds =
            (⟨[("k", 5)], [5], ["k"]⟩ : PosixFsState).openFds.erase fd) ∧
        ((lockKeys (⟨[("k", 5)], [5], ["k"]⟩ : PosixFsState).lockMap).Nodup →
          lookupLock (⟨[], [], ["k"]⟩ : PosixFsState).lockMap "k" = none)) :=
  ⟨rfl, (unlockFile_frame "k").1 ⟨[("k", 5)], [5], ["k"]⟩ ⟨[], [], ["k"]⟩ rfl⟩

/-! ### mkpath lemmas -/

theorem getD_drop (l : List Char) (pos k : Nat) :
    (l.drop pos).getD k ' ' = l.getD (pos + k) ' ' := by
  by_cases h : pos + k < l.length
  · have h2 : k < (l.drop pos).length := by
      rw [List.length_drop]
      omega
    rw [List.getD_eq_getElem _ _ h2, List.getD_eq_getElem _ _ h]
    exact List.getElem_drop l
  · have h2 : (l.drop pos).length ≤ k := by
      rw [List.length_drop]
      omega
    rw [List.getD_eq_default _ _ h2, List.getD_eq_default _ _ (by omega)]

theorem findSlashGo_some : ∀ (t : List Char) (i j : Nat), findSlashGo t i = some j →
    i ≤ j ∧ j - i < t.length ∧ t.getD (j - i) ' ' = '/' ∧
      ∀ k, k < j - i → t.getD k ' ' ≠ '/'
  | [], i, j, h => by simp [findSlashGo] at h
  | c :: t, i, j, h => by
    rw [findSlashGo] at h
    by_cases hc : c = '/'
    · rw [if_pos hc] at h
      cases h
      refine ⟨Nat.le_refl i, by simp, ?_, ?_⟩
      · simp [hc]
      · intro k hk
        omega
    · rw [if_neg hc] at h
      rcases findSlashGo_some t (i + 1) j h with ⟨h1, h2, h3, h4⟩
      have hji : j - i = (j - (i + 1)) + 1 := by omega
      refine ⟨by omega, by simp; omega, ?_, ?_⟩
      · rw [hji]
        exact h3
      · intro k hk
        cases k with
        | zero => simpa using hc
        | succ k =>
          have := h4 k (by omega)
          simpa using this

theorem findSlashGo_none : ∀ (t : List Char) (i : Nat), findSlashGo t i = none →
    ∀ k, k < t.length → t.getD k ' ' ≠ '/'
  | [], _, _, k, hk => by simp at hk
  | c :: t, i, h, k, hk => by
    rw [findSlashGo] at h
    by_cases hc : c = '/'
    · rw [if_pos hc] at h
      exact Option.noConfusion h
    · rw [if_neg hc] at h
      cases k with
      | zero => simpa using hc
      | succ k =>
        have := findSlashGo_none t (i + 1) h k (by simpa using hk)
        simpa using this

theorem findSlash_some_spec (l : List Char) (pos i : Nat) (h : findSlash l pos = some i) :
    pos ≤ i ∧ i < l.length ∧ l.getD i ' ' = '/' ∧
      ∀ j, pos ≤ j → j < i → l.getD j ' ' ≠ '/' := by
  rcases findSlashGo_some (l.drop pos) pos i h with ⟨h1, h2, h3, h4⟩
  rw [List.length_drop] at h2
  refine ⟨h1, by omega, ?_, ?_⟩
  · rw [getD_drop] at h3
    rwa [show pos + (i - pos) = i by omega] at h3
  · intro j hj hji
    have := h4 (j - pos) (by omega)
    rw [getD_drop] at this
    rwa [show pos + (j - pos) = j by omega] at this

theorem findSlash_none_spec (l : List Char) (pos : Nat) (h : findSlash l pos = none) :
    ∀ j, pos ≤ j → j < l.length → l.getD j ' ' ≠ '/' := by
  intro j hj hlen
  have := findSlashGo_none (l.drop pos) pos h (j - pos)
    (by rw [List.length_drop]; omega)
  rw [getD_drop] at this
  rwa [show pos + (j - pos) = j by omega] at this

theorem mkdir_snd_of_false (ok : String → List String → Bool) (name : String)
    (fs : List String) (h : (mkdir ok name fs).1 = false) : (mkdir ok name fs).2 = fs := by
  by_cases h1 : name = ""
  · simp [mkdir, h1]
  · by_cases h2 : fs.contains name = true
    · have h2' : name ∈ fs := by simpa using h2
      simp [mkdir, h1, h2']
    · by_cases h3 : ok name fs = true
      · exfalso
        rw [mkdir, if_neg h1, if_neg h2, if_pos h3] at h
        simp at h
      · simp [mkdir, h1, h2, h3]

theorem mkdir_true (ok : String → List String → Bool) (name : String) (fs : List String)
    (h : (mkdir ok name fs).1 = true) : (mkdir ok name fs).2 = name :: fs := by
  rw [mkdir] at h ⊢
  by_cases h1 : name = ""
  · rw [if_pos h1] at h
    simp at h
  · rw [if_neg h1] at h ⊢
    by_cases h2 : fs.contains name = true
    · rw [if_pos h2] at h
      simp at h
    · rw [if_neg h2] at h ⊢
      by_cases h3 : ok name fs = true
      · rw [if_pos h3]
      · rw [if_neg h3] at h
        simp at h

theorem mkpathGo_step (ok : String → List String → Bool) (path : List Char) (fuel : Nat)
    (fs : List String) (pos : Nat) (hp : pos < path.length) :
    mkpathGo ok path (fuel + 1) fs pos =
      if fsExistsB fs (String.mk (path.take ((findSlash path pos).getD path.length))) then
        mkpathGo ok path fuel fs ((findSlash path pos).getD path.length + 1)
      else if (mkdir ok (String.mk (path.take ((findSlash path pos).getD path.length))) fs).1 then
        mkpathGo ok path fuel
          ((mkdir ok (String.mk (path.take ((findSlash path pos).getD path.length))) fs).2)
          ((findSlash path pos).getD path.length + 1)
      else
        (false, (mkdir ok (String.mk (path.take ((findSlash path pos).getD path.length))) fs).2) := by
  rw [mkpathGo, if_pos hp]

theorem mkpathGo_stop (ok : String → List String → Bool) (path : List Char) (fuel : Nat)
    (fs : List String) (pos : Nat) (hp : ¬ pos < path.length) :
    mkpathGo ok path (fuel + 1) fs pos = (true, fs) := by
  rw [mkpathGo, if_neg hp]

theorem pos_le_cut (path : List Char) (pos : Nat) (hp : pos < path.length) :
    pos ≤ (findSlash path pos).getD path.length := by
  cases hfs : findSlash path pos with
  | some s =>
    have := (findSlash_some_spec path pos s hfs).1
    simpa using this
  | none =>
    simp
    omega

theorem cut_le_length (path : List Char) (pos : Nat) :
    (findSlash path pos).getD path.length ≤ path.length := by
  cases hfs : findSlash path pos with
  | some s =>
    have := (findSlash_some_spec path pos s hfs).2.1
    simp
    omega
  | none => simp

theorem mkpathGo_mono (ok : String → List String → Bool) (path : List Char) :
    ∀ (fuel : Nat) (fs : List String) (pos : Nat) (x : String),
      x ∈ fs → x ∈ (mkpathGo ok path fuel fs pos).2
  | 0, _, _, _, hx => hx
  | fuel + 1, fs, pos, x, hx => by
    by_cases hp : pos < path.length
    · rw [mkpathGo_step ok path fuel fs pos hp]
      by_cases he :
          fsExistsB fs (String.mk (path.take ((findSlash path pos).getD path.length))) = true
      · rw [if_pos he]
        exact mkpathGo_mono ok path fuel fs _ x hx
      · rw [if_neg he]
        by_cases hm :
            (mkdir ok (String.mk (path.take ((findSlash path pos).getD path.length))) fs).1 = true
        · rw [if_pos hm]
          refine mkpathGo_mono ok path fuel _ _ x ?_
          rw [mkdir_true _ _ _ hm]
          exact List.mem_cons_of_mem _ hx
        · rw [if_neg hm]
          have hb : (mkdir ok (String.mk (path.take ((findSlash path pos).getD path.length)))
              fs).1 = false := by
            simpa using hm
          exact (mkdir_snd_of_false _ _ _ hb).symm ▸ hx
    · rw [mkpathGo_stop ok path fuel fs pos hp]
      exact hx

theorem boundary_cases (path : List Char) (pos i : Nat) (_hp : pos < path.length)
    (hb : isBoundary path i) (hpos : pos ≤ i) :
    i = (findSlash path pos).getD path.length ∨
      (findSlash path pos).getD path.length + 1 ≤ i := by
  cases hfs : findSlash path pos with
  | some s =>
    rcases findSlash_some_spec path pos s hfs with ⟨h1, h2, h3, h4⟩
    simp only [Option.getD_some]
    rcases hb with ⟨hi, hslash⟩ | ⟨hi, hpos', hlast⟩
    · by_cases his : i = s
      · exact Or.inl his
      · right
        by_contra hlt
        push_neg at hlt
        exact h4 i hpos (by omega) hslash
    · subst hi
      exact Or.inr (by omega)
  | none =>
    have hn := findSlash_none_spec path pos hfs
    simp only [Option.getD_none]
    rcases hb with ⟨hi, hslash⟩ | ⟨hi, _, _⟩
    · exact absurd hslash (hn i hpos hi)
    · exact Or.inl hi

theorem cut_safe (path : List Char) (pos : Nat) (_hp : pos < path.length)
    (hcl : (findSlash path pos).getD path.length + 1 = path.length) :
    ¬ isBoundary path path.length := by
  intro hb
  rcases hb with ⟨hi, _⟩ | ⟨_, _, hlast⟩
  · omega
  · cases hfs : findSlash path pos with
    | some s =>
      rcases findSlash_some_spec path pos s hfs with ⟨_, _, h3, _⟩
      rw [hfs] at hcl
      simp only [Option.getD_some] at hcl
      apply hlast
      rw [show path.length - 1 = s by omega]
      exact h3
    | none =>
      rw [hfs] at hcl
      simp only [Option.getD_none] at hcl
      omega

theorem fsExistsB_mem (fs : List String) (name : String) (h : fsExistsB fs name = true) :
    name ∈ fs := by
  rw [fsExistsB, Bool.and_eq_true] at h
  simpa using h.2

theorem mkpathGo_true_boundary (ok : String → List String → Bool) (path : List Char) :
    ∀ (fuel : Nat) (fs : List String) (pos : Nat) (fs' : List String),
      path.length - pos < fuel →
      (pos = path.length → ¬ isBoundary path path.length) →
      mkpathGo ok path fuel fs pos = (true, fs') →
      ∀ i, pos ≤ i → isBoundary path i → String.mk (path.take i) ∈ fs'
  | 0, _, _, _, hfuel, _, _, _, _, _ => absurd hfuel (by omega)
  | fuel + 1, fs, pos, fs', hfuel, hsafe, hrun, i, hpos, hb => by
    by_cases hp : pos < path.length
    · have hplc := pos_le_cut path pos hp
      have hcll := cut_le_length path pos
      have hsafe2 : (findSlash path pos).getD path.length + 1 = path.length →
          ¬ isBoundary path path.length := cut_safe path pos hp
      have hfuel2 : path.length - ((findSlash path pos).getD path.length + 1) < fuel := by
        omega
      rw [mkpathGo_step ok path fuel fs pos hp] at hrun
      by_cases he :
          fsExistsB fs (String.mk (path.take ((findSlash path pos).getD path.length))) = true
      · rw [if_pos he] at hrun
        rcases boundary_cases path pos i hp hb hpos with hcase | hcase
        · subst hcase
          have hmem := mkpathGo_mono ok path fuel fs
            ((findSlash path pos).getD path.length + 1) _ (fsExistsB_mem _ _ he)
          rwa [hrun] at hmem
        · exact mkpathGo_true_boundary ok path fuel fs _ fs' hfuel2 hsafe2 hrun i hcase hb
      · rw [if_neg he] at hrun
        by_cases hm :
            (mkdir ok (String.mk (path.take ((findSlash path pos).getD path.length))) fs).1 = true
        · rw [if_pos hm] at hrun
          rcases boundary_cases path pos i hp hb hpos with hcase | hcase
          · subst hcase
            have hmem := mkpathGo_mono ok path fuel
              ((mkdir ok (String.mk (path.take ((findSlash path pos).getD path.length))) fs).2)
              ((findSlash path pos).getD path.length + 1)
              (String.mk (path.take ((findSlash path pos).getD path.length)))
              (by rw [mkdir_true _ _ _ hm]; exact List.mem_cons_self _ _)
            rwa [hrun] at hmem
          · exact mkpathGo_true_boundary ok path fuel _ _ fs' hfuel2 hsafe2 hrun i hcase hb
        · rw [if_neg hm] at hrun
          simp at hrun
    · rw [mkpathGo_stop ok path fuel fs pos hp] at hrun
      have hcopy := hb
      rcases hb with ⟨hi, _⟩ | ⟨hi, _, _⟩
      · exact absurd hi (by omega)
      · subst hi
        have hpl : pos = path.length := by omega
        exact absurd hcopy (hsafe hpl)

theorem mkpathGo_false_boundary (ok : String → List String → Bool) (path : List Char) :
    ∀ (fuel : Nat) (fs : List String) (pos : Nat) (fs' : List String),
      mkpathGo ok path fuel fs pos = (false, fs') →
      ∃ i, pos ≤ i ∧ isBoundary path i ∧
        fsExistsB fs' (String.mk (path.take i)) = false ∧
        (mkdir ok (String.mk (path.take i)) fs').1 = false
  | 0, fs, pos, fs', hrun => by simp [mkpathGo] at hrun
  | fuel + 1, fs, pos, fs', hrun => by
    by_cases hp : pos < path.length
    · have hplc := pos_le_cut path pos hp
      rw [mkpathGo_step ok path fuel fs pos hp] at hrun
      by_cases he :
          fsExistsB fs (String.mk (path.take ((findSlash path pos).getD path.length))) = true
      · rw [if_pos he] at hrun
        rcases mkpathGo_false_boundary ok path fuel fs _ fs' hrun with ⟨i, hi, hrest⟩
        exact ⟨i, by omega, hrest⟩
      · rw [if_neg he] at hrun
        by_cases hm :
            (mkdir ok (String.mk (path.take ((findSlash path pos).getD path.length))) fs).1 = true
        · rw [if_pos hm] at hrun
          rcases mkpathGo_false_boundary ok path fuel _ _ fs' hrun with ⟨i, hi, hrest⟩
          exact ⟨i, by omega, hrest⟩
        · rw [if_neg hm] at hrun
          have hb1 : (mkdir ok (String.mk (path.take ((findSlash path pos).getD path.length)))
              fs).1 = false := by simpa using hm
          have hfs2 : (mkdir ok (String.mk (path.take ((findSlash path pos).getD path.length)))
              fs).2 = fs := mkdir_snd_of_false _ _ _ hb1
          have hfs' : fs' = fs := by
            rw [hfs2] at hrun
            simpa using hrun.symm
          refine ⟨(findSlash path pos).getD path.length, hplc, ?_, ?_, ?_⟩
          · cases hfs : findSlash path pos with
            | some s =>
              rcases findSlash_some_spec path pos s hfs with ⟨h1, h2, h3, _⟩
              simp only [Option.getD_some]
              exact Or.inl ⟨h2, h3⟩
            | none =>
              have hn := findSlash_none_spec path pos hfs
              simp only [Option.getD_none]
              exact Or.inr ⟨rfl, by omega, hn (path.length - 1) (by omega) (by omega)⟩
          · rw [hfs']
            simpa using he
          · rw [hfs']
            exact hb1
    · rw [mkpathGo_stop ok path fuel fs pos hp] at hrun
      simp at hrun

/-- C7: `mkpath` walks the `/`-separated prefixes left to right.  On an
empty filesystem, `mkpath "a/b/c"` creates `a`, then `a/b`, then
`a/b/c` (the model conses each new directory, so the resulting list holds
them newest first) and returns true; running it again when all three
exist returns true and changes nothing (idempotent).  Whenever `mkpath`
returns true, every prefix directory of the path (every `path.take i` at
a boundary position) exists in the resulting filesystem; whenever it
returns false, it stopped at a prefix that neither exists nor could be
created by `mkdir`. -/
theorem mkpath_spec :
    mkpath (fun _ _ => true) "a/b/c" [] = (true, ["a/b/c", "a/b", "a"]) ∧
    mkpath (fun _ _ => true) "a/b/c" ["a/b/c", "a/b", "a"] = (true, ["a/b/c", "a/b", "a"]) ∧
    (∀ ok path fs fs', mkpath ok path fs = (true, fs') →
      ∀ i, isBoundary path.data i → String.mk (path.data.take i) ∈ fs') ∧
    (∀ ok path fs fs', mkpath ok path fs = (false, fs') →
      ∃ i, isBoundary path.data i ∧ fsExistsB fs' (String.mk (path.data.take i)) = false ∧
        (mkdir ok (String.mk (path.data.take i)) fs').1 = false) := by
  refine ⟨by decide, by decide, ?_, ?_⟩
  · intro ok path fs fs' hrun i hb
    have hsafe : (0 : Nat) = path.data.length → ¬ isBoundary path.data path.data.length := by
      intro h0 hb'
      rcases hb' with ⟨hi, _⟩ | ⟨_, hpos, _⟩
      · omega
      · omega
    exact mkpathGo_true_boundary ok path.data (path.data.length + 1) fs 0 fs'
      (by omega) hsafe hrun i (Nat.zero_le i) hb
  · intro ok path fs fs' hrun
    rcases mkpathGo_false_boundary ok path.data (path.data.length + 1) fs 0 fs' hrun with
      ⟨i, _, hrest⟩
    exact ⟨i, hrest⟩

/-- Witness for C7: the success invariant applied to a concrete run of
`mkpath "a/b"` on the empty filesystem. -/
theorem mkpath_spec_witness :
    mkpath (fun _ _ => true) "a/b" [] = (true, ["a/b", "a"]) ∧
      (∀ i, isBoundary ("a/b" : String).data i →
        String.mk (("a/b" : String).data.take i) ∈ ["a/b", "a"]) :=
  ⟨by decide, mkpath_spec.2.2.1 (fun _ _ => true) "a/b" [] ["a/b", "a"] (by decide)⟩

theorem mkpathGo_slash_head (ok : String → List String → Bool) (t : List Char) (fuel : Nat)
    (fs : List String) : mkpathGo ok ('/' :: t) (fuel + 1) fs 0 = (false, fs) := by
  have hfs : findSlash ('/' :: t) 0 = some 0 := by
    rw [findSlash, List.drop_zero, findSlashGo, if_pos rfl]
  rw [mkpathGo_step ok ('/' :: t) fuel fs 0 (by simp), hfs]
  simp only [Option.getD_some, List.take_zero]
  have hempty : String.mk ([] : List Char) = "" := rfl
  rw [hempty]
  have he : fsExistsB fs "" = false := rfl
  rw [he]
  simp only [Bool.false_eq_true, if_false]
  have hm : mkdir ok "" fs = (false, fs) := by
    rw [mkdir, if_pos rfl]
  rw [hm]
  simp

/-- C9: on every path that begins with '/', `mkpath` returns false and
leaves the filesystem unchanged: its first computed prefix is the empty
string, which neither exists (`stat("")` reports ENOENT) nor can be
created by `mkdir`, so the walk stops at the first segment. -/
theorem mkpath_absolute (ok : String → List String → Bool) (s : String) (fs : List String)
    (h : s.data.head? = some '/') : mkpath ok s fs = (false, fs) := by
  rcases s with ⟨l⟩
  cases l with
  | nil => simp at h
  | cons c t =>
    have hc : c = '/' := by simpa using h
    subst hc
    exact mkpathGo_slash_head ok t (t.length + 1) fs

/-- Witness for C9 on the concrete absolute path "/a". -/
theorem mkpath_absolute_witness :
    ("/a" : String).data.head? = some '/' ∧
      mkpath (fun _ _ => true) "/a" ["d"] = (false, ["d"]) :=
  ⟨by decide, mkpath_absolute (fun _ _ => true) "/a" ["d"] (by decide)⟩

/-- C8: `exists` returns true when the queried path is present, false
exactly when the OS query fails with the branch's not-found code (ENOENT
on POSIX, ERROR_FILE_NOT_FOUND on Windows), and throws the AccessError
("error accessing path: " + name) exactly on every other query failure;
the Windows branch additionally short-circuits the empty name to false
without querying, matching POSIX where stat("") yields ENOENT. -/
theorem fsExists_spec :
    (∀ n r, fsExistsPosix n r = .ok false ↔ r = .errNotFound) ∧
    (∀ n r, fsExistsPosix n r = .ok true ↔ r = .found) ∧
    (∀ n r, fsExistsPosix n r = .error ("error accessing path: " ++ n) ↔ r = .errOther) ∧
    (∀ n r, n ≠ "" → (fsExistsWin n r = .ok false ↔ r = .errNotFound)) ∧
    (∀ n r, n ≠ "" → (fsExistsWin n r = .ok true ↔ r = .found)) ∧
    (∀ n r, n ≠ "" →
      (fsExistsWin n r = .error ("error accessing path: " ++ n) ↔ r = .errOther)) ∧
    (∀ r, fsExistsWin "" r = .ok false) := by
  refine ⟨?_, ?_, ?_, ?_, ?_, ?_, ?_⟩
  · intro n r
    cases r <;> simp [fsExistsPosix]
  · intro n r
    cases r <;> simp [fsExistsPosix]
  · intro n r
    cases r <;> simp [fsExistsPosix]
  · intro n r hn
    cases r <;> simp [fsExistsWin, hn]
  · intro n r hn
    cases r <;> simp [fsExistsWin, hn]
  · intro n r hn
    cases r <;> simp [fsExistsWin, hn]
  · intro r
    rfl

/-- Witness for C8 at a concrete nonempty name and each query result. -/
theorem fsExists_spec_witness :
    ("x" : String) ≠ "" ∧
      (fsExistsWin "x" .errNotFound = .ok false ↔ StatRes.errNotFound = .errNotFound) ∧
      (fsExistsPosix "x" .errOther = .error ("error accessing path: " ++ "x") ↔
        StatRes.errOther = .errOther) :=
  ⟨by decide, fsExists_spec.2.2.2.1 "x" .errNotFound (by decide),
    fsExists_spec.2.2.1 "x" .errOther⟩
